import Mathlib

/-!
Verification of the embedding index store of `backend/app/faiss_server.py`
(ChunkCanvas).  The Python endpoints are shallowly embedded as pure Lean
functions: the FAISS `IndexIDMap2` is modelled as an association list from
integer id to real vector (insertion order preserved, as FAISS preserves the
order of remaining entries on `remove_ids` and appends on `add_with_ids`), the
JSON metadata sidecar as an association list with Python-dict update
semantics (assignment to an existing key keeps its position, a new key is
appended), and file-system effects as explicit operation lists over a map
from path to contents.
-/

namespace ChunkCanvas

/-! ### Association lists with Python-dict semantics -/

/-- Membership test for a key, as for the Python `in` operator on a dict. -/
def containsKey [DecidableEq κ] : List (κ × β) → κ → Bool
  | [], _ => false
  | p :: rest, k => if p.1 = k then true else containsKey rest k

/-- Lookup, as for Python `d[k]` (first matching entry). -/
def getAssoc [DecidableEq κ] : List (κ × β) → κ → Option β
  | [], _ => none
  | p :: rest, k => if p.1 = k then some p.2 else getAssoc rest k

/-- Python dict assignment `d[k] = v`: an existing key keeps its position and
is overwritten, a fresh key is appended at the end. -/
def setAssoc [DecidableEq κ] (l : List (κ × β)) (k : κ) (v : β) : List (κ × β) :=
  if containsKey l k then l.map (fun p => if p.1 = k then (k, v) else p)
  else l ++ [(k, v)]

/-! ### `_safe_db_name` (lines 108-113): name sanitization -/

/-- Characters of the class `[a-zA-Z0-9._-]` of the sanitization regex. -/
def allowedChar (c : Char) : Bool :=
  c.isAlphanum || c == '.' || c == '_' || c == '-'

/-- Characters stripped from both ends by `.strip(".-_")`. -/
def sepChar (c : Char) : Bool :=
  c == '.' || c == '-' || c == '_'

/-- Python `str.strip()`: whitespace removed from both ends. -/
def stripWs (s : List Char) : List Char :=
  ((s.dropWhile Char.isWhitespace).reverse.dropWhile Char.isWhitespace).reverse

/-- Python `str.strip(".-_")`: any of `.`, `-`, `_` removed from both ends. -/
def stripSeps (s : List Char) : List Char :=
  ((s.dropWhile sepChar).reverse.dropWhile sepChar).reverse

/-- Structural-recursion rendering of `re.sub(r"[^a-zA-Z0-9._-]+", "-", s)`:
each maximal run of disallowed characters is replaced by a single dash.  The
flag records whether we are inside such a run. -/
def subRun : List Char → Bool → List Char
  | [], _ => []
  | c :: rest, inRun =>
    if allowedChar c then c :: subRun rest false
    else if inRun then subRun rest true
    else '-' :: subRun rest true

/-- Error raised by `_safe_db_name` when the sanitized name is empty. -/
inductive NameError where
  | invalidName : NameError
deriving DecidableEq

/-- Model of `_safe_db_name` (lines 108-113): strip whitespace, replace runs
of characters outside `[a-zA-Z0-9._-]` by a dash, strip `.`/`-`/`_` from both
ends, and reject an empty result with HTTP 400 "Invalid db_name". -/
def _safe_db_name (name : String) : Except NameError String :=
  let normalized := stripSeps (subRun (stripWs name.data) false)
  if normalized = [] then .error .invalidName else .ok (String.mk normalized)

/-- Sanitization as the specification words it: only the allowed characters
are RETAINED (all other characters removed), then separators stripped.  Kept
for comparison against `_safe_db_name`, which instead substitutes a dash. -/
def specSanitize (name : String) : List Char :=
  stripSeps ((stripWs name.data).filter allowedChar)

/-! ### `_meta_path` / `_save_meta` (lines 128-129, 161-166): persistence -/

/-- Model of `Path.with_suffix(".meta.json")` for a path whose last component
carries an extension: everything from the final dot on is replaced. -/
def _meta_path (db_file : String) : String :=
  let rev := db_file.data.reverse
  if (rev.takeWhile (fun c => !(c == '/'))).any (fun c => c == '.') then
    String.mk (((rev.dropWhile (fun c => !(c == '.'))).drop 1).reverse) ++ ".meta.json"
  else db_file ++ ".meta.json"

/-- Parent directory of a path (`Path.parent`). -/
def parentDir (p : String) : String :=
  String.mk (((p.data.reverse.dropWhile (fun c => !(c == '/'))).drop 1).reverse)

/-- File-system operations performed by the persistence code. -/
inductive FsOp where
  | mkdirParents (dir : String)
  | writeText (path : String) (content : String)
  | rename (src : String) (dst : String)
deriving DecidableEq

/-- Operation sequence of `_save_meta` (lines 161-166): make the parent
directory, then `Path.write_text` straight onto the sidecar path.  The JSON
rendering of the payload (`json.dumps`) is abstracted as the string argument. -/
def _save_meta_ops (db_file : String) (payload : String) : List FsOp :=
  [FsOp.mkdirParents (parentDir (_meta_path db_file)),
   FsOp.writeText (_meta_path db_file) payload]

/-- Effect of one (fully completed) operation on the file system, modelled as
a path-to-contents association list. -/
def applyOp (fs : List (String × String)) : FsOp → List (String × String)
  | FsOp.mkdirParents _ => fs
  | FsOp.writeText p c => setAssoc fs p c
  | FsOp.rename src dst =>
    match getAssoc fs src with
    | some c => setAssoc (fs.filter (fun q => !(decide (q.1 = src)))) dst c
    | none => fs

/-- Run an operation sequence to completion. -/
def runOps (fs : List (String × String)) (ops : List FsOp) : List (String × String) :=
  ops.foldl applyOp fs

/-- Run an operation sequence but fail during operation `i`: the operations
before `i` complete, and if operation `i` is a `write_text` the target file is
left truncated to a prefix of the new content (Python's `write_text` opens the
file with mode `w`, which truncates before writing). -/
def runOpsCrash (fs : List (String × String)) (ops : List FsOp) (i k : Nat) :
    List (String × String) :=
  let done := runOps fs (ops.take i)
  match ops[i]? with
  | some (FsOp.writeText p c) => setAssoc done p (c.take k)
  | _ => done

/-- An operation sequence follows the write-then-atomic-replace discipline for
`target` when it renames onto `target` and never writes `target` directly.
This definition follows the specification's words, for comparison with
`_save_meta_ops`. -/
def writesDirectlyTo (ops : List FsOp) (target : String) : Bool :=
  ops.any (fun op => match op with
    | FsOp.writeText p _ => p == target
    | _ => false)

/-- True when some rename lands on `target` (the "atomic replace" step). -/
def renamesOnto (ops : List FsOp) (target : String) : Bool :=
  ops.any (fun op => match op with
    | FsOp.rename _ dst => dst == target
    | _ => false)

/-- The atomic-replace discipline the specification asserts: the final file
appears via a rename, never via an in-place write. -/
def atomicReplaceDiscipline (ops : List FsOp) (target : String) : Bool :=
  renamesOnto ops target && !(writesDirectlyTo ops target)

/-! ### `_load_meta` (lines 144-158): the metadata sidecar -/

/-- JSON values (numbers restricted to integers: the store only ever writes
integer numerals into the sidecar). -/
inductive Json where
  | null : Json
  | bool (b : Bool) : Json
  | num (n : Int) : Json
  | str (s : String) : Json
  | arr (xs : List Json) : Json
  | obj (kvs : List (String × Json)) : Json

/-- Python `isinstance(x, dict)`. -/
def Json.isObj : Json → Bool
  | .obj _ => true
  | _ => false

/-- Failure of `_load_meta` (HTTP 500, "Failed to read metadata"). -/
inductive MetaError where
  | corruptMetadata : MetaError
deriving DecidableEq

/-- Default returned when the sidecar file does not exist (line 147). -/
def metaDefault : Json :=
  .obj [("records", .obj []), ("dimension", .null), ("metric", .str "cosine")]

/-- Model of `_load_meta` (lines 144-158).  The argument models the sidecar
file: `none` means the file does not exist, `some none` that it exists but
`json.loads` fails, `some (some j)` that it parses to `j`.  A parsed value
that is not a dict raises; a dict with a missing or non-dict `records` field
has that field silently replaced by the empty dict. -/
def _load_meta : Option (Option Json) → Except MetaError Json
  | none => .ok metaDefault
  | some none => .error .corruptMetadata
  | some (some (.obj kvs)) =>
    match getAssoc kvs "records" with
    | some (.obj _) => .ok (.obj kvs)
    | _ => .ok (.obj (setAssoc kvs "records" (.obj [])))
  | some (some _) => .error .corruptMetadata

/-! ### The store: one FAISS index plus its metadata sidecar

`upsert_items` (lines 243-302), `get_content` (lines 326-377).  Vector
components are modelled as real numbers.  `Store.dim` is `index.d` (fixed at
creation), `Store.vecs` the `IndexIDMap2` contents in insertion order,
`Store.records` the sidecar's `records` dict, `Store.metaDimension` and
`Store.metaMetric` the sidecar's `dimension` and `metric` fields.  The
`metadata` payload of a record is schema-free in the source (`dict[str,
Any]`), so it is a type parameter `μ` throughout. -/

/-- One item of an `UpsertRequest` (lines 39-43). -/
structure UpsertItem (μ : Type) where
  id : Int
  text : String
  vector : List ℝ
  metadata : μ

/-- One value of the sidecar `records` dict: `{"text": ..., "metadata": ...}`
(lines 278-281). -/
structure Rec (μ : Type) where
  text : String
  metadata : μ

/-- In-memory state of one index file together with its metadata sidecar. -/
structure Store (μ : Type) where
  dim : Nat
  vecs : List (Int × List ℝ)
  records : List (Int × Rec μ)
  metaDimension : Option Nat
  metaMetric : String

/-- Body of the successful upsert response (lines 296-302), without the
echoed path. -/
structure UpsertResult where
  upserted : Nat
  total : Nat
  dimension : Nat
  metric : String
deriving DecidableEq

/-- Failures of the upsert endpoint.  `duplicateId` and `dimensionMismatch`
are the HTTP 400 validation errors; `valueError` is the unhandled
`ValueError` that `np.array(..., dtype=np.float32)` raises on a ragged batch
(surfaced as a generic HTTP 500).  That exception is thrown before the shape
check of line 261, so for a pydantic-valid request the array is always 2-d
when the check runs and the `invalid` detail of line 264 is unreachable:
`got` is always `vectors.shape[1]`. -/
inductive UpsertError where
  | duplicateId : UpsertError
  | dimensionMismatch (expected : Nat) (got : Nat) : UpsertError
  | valueError : UpsertError
deriving DecidableEq

/-- `UpsertRequest.validate_items` (lines 50-56): `len(set(ids)) == len(ids)`.
Pydantic runs this before the endpoint body, so a failing batch touches
nothing. -/
def validate_items (items : List (UpsertItem μ)) : Bool :=
  ((items.map (·.id)).dedup.length == (items.map (·.id)).length)

/-- Behaviour of `np.array([item.vector for item in items], dtype=np.float32)`
(line 260) on a pydantic-validated batch (non-empty, every vector a flat list
of floats): a rectangular batch yields a 2-d array whose second dimension is
the common row length (`some`); a ragged batch makes `np.array` raise
`ValueError` (`none`), so execution never reaches the shape check of
line 261. -/
def npShape (vs : List (List ℝ)) : Option Nat :=
  match vs with
  | [] => none
  | v :: rest => if rest.all (fun w => w.length == v.length) then some v.length else none

/-- Effective metric (lines 256-258): the sidecar value if it is one of
`cosine`, `l2`, `ip`, else `cosine`. -/
def effMetric (m : String) : String :=
  if m = "cosine" ∨ m = "l2" ∨ m = "ip" then m else "cosine"

/-- Sum of squares of a vector; `sumsq v` is the square of the L2 norm. -/
def sumsq (v : List ℝ) : ℝ :=
  (v.map (fun x => x * x)).sum

/-- Model of `faiss.normalize_L2` on one row (line 270): FAISS's
`fvec_renorm_L2` divides by the L2 norm only when the squared norm is
positive, so a zero vector is left unchanged. -/
noncomputable def normalize_L2 (v : List ℝ) : List ℝ :=
  if 0 < sumsq v then v.map (fun x => x / Real.sqrt (sumsq v)) else v

/-- Metric-specific preprocessing of the batch (lines 269-270): under the
cosine metric every row is L2-normalized in place. -/
noncomputable def normVecs (metric : String) (vs : List (List ℝ)) : List (List ℝ) :=
  if metric = "cosine" then vs.map normalize_L2 else vs

/-- `index.remove_ids(selector)` (lines 272-273): every entry whose id occurs
in `ids` is removed; FAISS keeps the remaining entries in order. -/
def removeIds (vecs : List (Int × List ℝ)) (ids : List Int) : List (Int × List ℝ) :=
  vecs.filter (fun p => !(decide (p.1 ∈ ids)))

/-- `remove_ids` followed by `add_with_ids(vectors, ids)` (lines 272-274):
replace-not-append semantics. -/
def removeThenAdd (vecs : List (Int × List ℝ)) (ids : List Int) (vs : List (List ℝ)) :
    List (Int × List ℝ) :=
  removeIds vecs ids ++ ids.zip vs

/-- The loop of lines 277-281: `records[str(item.id)] = {"text": ...,
"metadata": ...}` for each item, with Python-dict assignment semantics. -/
def applyRecords (rs : List (Int × Rec μ)) (items : List (UpsertItem μ)) :
    List (Int × Rec μ) :=
  items.foldl (fun acc it => setAssoc acc it.id ⟨it.text, it.metadata⟩) rs

/-- Vector-index contents after a successful upsert (lines 267-274). -/
noncomputable def newVecsOf (st : Store μ) (items : List (UpsertItem μ)) :
    List (Int × List ℝ) :=
  removeThenAdd st.vecs (items.map (·.id))
    (normVecs (effMetric st.metaMetric) (items.map (·.vector)))

/-- Store state after a successful upsert (lines 267-285): new vectors, new
records, and the sidecar's `dimension`/`metric` fields rewritten from the
validated values. -/
noncomputable def upsertState (st : Store μ) (items : List (UpsertItem μ)) : Store μ :=
  { st with
    vecs := newVecsOf st items
    records := applyRecords st.records items
    metaDimension := some st.dim
    metaMetric := effMetric st.metaMetric }

/-- Response of a successful upsert (lines 296-302): `total` is
`index.ntotal` after the mutation. -/
noncomputable def upsertReport (st : Store μ) (items : List (UpsertItem μ)) : UpsertResult :=
  ⟨items.length, (newVecsOf st items).length, st.dim, effMetric st.metaMetric⟩

/-- Model of the `upsert_items` endpoint (lines 243-302) acting on a loaded
store.  The duplicate-id check is pydantic's request validation (lines
50-56); building the batch array on a ragged batch raises an unhandled
`ValueError` (line 260); the dimension check compares against `index.d`
(lines 255, 260-265); on success both stores are replaced by the post-upsert
state.  Existence and I/O failures concern the file system and are modelled
separately (`_save_meta_ops`). -/
noncomputable def upsert_items (st : Store μ) (items : List (UpsertItem μ)) :
    Except UpsertError (Store μ × UpsertResult) :=
  if validate_items items then
    match npShape (items.map (·.vector)) with
    | some l =>
      if l = st.dim then .ok (upsertState st items, upsertReport st items)
      else .error (.dimensionMismatch st.dim l)
    | none => .error .valueError
  else .error .duplicateId

/-! ### `get_content` (lines 326-377): paginated, sorted record views -/

/-- One element of the `items` array of a content response (lines 59-64). -/
structure RecordView (μ : Type) where
  id : Int
  text : String
  metadata : μ
  embedding_preview : List ℝ

/-- Lines 353-358: `index.reconstruct(item_id)` truncated to `preview_dim`
components; a failing reconstruction (absent id) degrades to an empty
preview. -/
def reconstructPreview (st : Store μ) (i : Int) (preview_dim : Nat) : List ℝ :=
  match getAssoc st.vecs i with
  | some v => v.take preview_dim
  | none => []

/-- Lines 345-366: one view per entry of the `records` dict.  Keys written by
this store are decimal renderings of the ids, so `int(key)` always succeeds
here and the keys are kept as integers. -/
def viewsOf (st : Store μ) (preview_dim : Nat) : List (RecordView μ) :=
  st.records.map (fun p => ⟨p.1, p.2.text, p.2.metadata, reconstructPreview st p.1 preview_dim⟩)

/-- Sort key of line 368: ascending id. -/
def viewLE (a b : RecordView μ) : Prop :=
  a.id ≤ b.id

instance : DecidableRel (viewLE (μ := μ)) :=
  fun a b => (inferInstance : Decidable (a.id ≤ b.id))

instance : IsTotal (RecordView μ) viewLE :=
  ⟨fun a b => Int.le_total a.id b.id⟩

instance : IsTrans (RecordView μ) viewLE :=
  ⟨fun _ _ _ h1 h2 => le_trans h1 h2⟩

/-- Model of the `get_content` endpoint (lines 326-377) on a loaded store:
build one view per record, sort by ascending id, return the slice
`[offset, offset+limit)` (lines 368-369). -/
def get_content (st : Store μ) (offset limit preview_dim : Nat) : List (RecordView μ) :=
  ((List.insertionSort viewLE (viewsOf st preview_dim)).drop offset).take limit


/-! ### Lemmas about the association-list operations -/

theorem containsKey_iff {κ β : Type*} [DecidableEq κ] (l : List (κ × β)) (k : κ) :
    containsKey l k = true ↔ k ∈ l.map Prod.fst := by
  induction l with
  | nil => simp [containsKey]
  | cons p rest ih =>
    by_cases h : p.1 = k
    · subst h; simp [containsKey]
    · simp [containsKey, h, ih, Ne.symm h]

theorem getAssoc_mapReplace {κ β : Type*} [DecidableEq κ] (l : List (κ × β)) (k : κ) (v : β) :
    getAssoc (l.map (fun p => if p.1 = k then (k, v) else p)) k =
      if containsKey l k then some v else none := by
  induction l with
  | nil => simp [getAssoc, containsKey]
  | cons p rest ih =>
    by_cases h : p.1 = k <;> simp [getAssoc, containsKey, h, ih]

theorem getAssoc_mapReplace_ne {κ β : Type*} [DecidableEq κ] (l : List (κ × β)) {k' k : κ}
    (v : β) (h : k' ≠ k) :
    getAssoc (l.map (fun p => if p.1 = k' then (k', v) else p)) k = getAssoc l k := by
  induction l with
  | nil => simp
  | cons p rest ih =>
    by_cases hp : p.1 = k'
    · have hpk : ¬ p.1 = k := by rw [hp]; exact h
      simp [getAssoc, hp, hpk, h, ih]
    · by_cases hpk : p.1 = k <;> simp [getAssoc, hp, hpk, ih, Ne.symm h]

theorem filterKey_mapReplace_ne {κ β : Type*} [DecidableEq κ] (l : List (κ × β)) {k' k : κ}
    (v : β) (h : k' ≠ k) :
    (l.map (fun p => if p.1 = k' then (k', v) else p)).filter (fun p => decide (p.1 = k)) =
      l.filter (fun p => decide (p.1 = k)) := by
  induction l with
  | nil => simp
  | cons p rest ih =>
    by_cases hp : p.1 = k'
    · have hpk : ¬ p.1 = k := by rw [hp]; exact h
      simp [List.filter_cons, hp, hpk, h, ih]
    · by_cases hpk : p.1 = k <;> simp [List.filter_cons, hp, hpk, ih, Ne.symm h]

theorem getAssoc_append_singleton_ne {κ β : Type*} [DecidableEq κ] (l : List (κ × β))
    {k' k : κ} (v : β) (h : k' ≠ k) : getAssoc (l ++ [(k', v)]) k = getAssoc l k := by
  induction l with
  | nil => simp [getAssoc, h]
  | cons p rest ih =>
    by_cases hp : p.1 = k <;> simp [getAssoc, hp, ih]

theorem getAssoc_none_of_not_contains {κ β : Type*} [DecidableEq κ] {l : List (κ × β)}
    {k : κ} (h : containsKey l k = false) : getAssoc l k = none := by
  induction l with
  | nil => rfl
  | cons p rest ih =>
    simp only [containsKey] at h
    by_cases hp : p.1 = k
    · simp [hp] at h
    · simp only [getAssoc, if_neg hp]
      exact ih (by simpa [hp] using h)

theorem getAssoc_append_right {κ β : Type*} [DecidableEq κ] (l l₂ : List (κ × β)) (k : κ)
    (h : containsKey l k = false) : getAssoc (l ++ l₂) k = getAssoc l₂ k := by
  induction l with
  | nil => simp
  | cons p rest ih =>
    simp only [containsKey] at h
    by_cases hp : p.1 = k
    · simp [hp] at h
    · simp only [List.cons_append, getAssoc, if_neg hp]
      exact ih (by simpa [hp] using h)

theorem getAssoc_setAssoc_self {κ β : Type*} [DecidableEq κ] (l : List (κ × β)) (k : κ) (v : β) :
    getAssoc (setAssoc l k v) k = some v := by
  unfold setAssoc
  by_cases hc : containsKey l k
  · simp [hc, getAssoc_mapReplace]
  · rw [if_neg (by simpa using hc), getAssoc_append_right _ _ _ (by simpa using hc)]
    simp [getAssoc]

theorem getAssoc_setAssoc_ne {κ β : Type*} [DecidableEq κ] (l : List (κ × β)) {k' k : κ}
    (v : β) (h : k' ≠ k) : getAssoc (setAssoc l k' v) k = getAssoc l k := by
  unfold setAssoc
  by_cases hc : containsKey l k'
  · rw [if_pos hc]; exact getAssoc_mapReplace_ne l v h
  · rw [if_neg (by simpa using hc)]; exact getAssoc_append_singleton_ne l v h

theorem filterKey_setAssoc_ne {κ β : Type*} [DecidableEq κ] (l : List (κ × β)) {k' k : κ}
    (v : β) (h : k' ≠ k) :
    (setAssoc l k' v).filter (fun p => decide (p.1 = k)) =
      l.filter (fun p => decide (p.1 = k)) := by
  unfold setAssoc
  by_cases hc : containsKey l k'
  · rw [if_pos hc]; exact filterKey_mapReplace_ne l v h
  · rw [if_neg (by simpa using hc), List.filter_append]
    simp [List.filter_cons, h]

theorem keys_mapReplace {κ β : Type*} [DecidableEq κ] (l : List (κ × β)) (k : κ) (v : β) :
    (l.map (fun p => if p.1 = k then (k, v) else p)).map Prod.fst = l.map Prod.fst := by
  rw [List.map_map]
  refine List.map_congr_left (fun p _ => ?_)
  by_cases h : p.1 = k <;> simp [h]

theorem mem_keys_setAssoc {κ β : Type*} [DecidableEq κ] (l : List (κ × β)) (k i : κ) (v : β) :
    i ∈ (setAssoc l k v).map Prod.fst ↔ i = k ∨ i ∈ l.map Prod.fst := by
  unfold setAssoc
  by_cases hc : containsKey l k
  · rw [if_pos hc, keys_mapReplace]
    rw [containsKey_iff] at hc
    constructor
    · exact Or.inr
    · rintro (rfl | h)
      · exact hc
      · exact h
  · rw [if_neg (by simpa using hc), List.map_append]
    simp [or_comm]

theorem containsKey_of_mem {κ β : Type*} [DecidableEq κ] {l : List (κ × β)} {p : κ × β}
    (h : p ∈ l) : containsKey l p.1 = true :=
  (containsKey_iff l p.1).2 (List.mem_map_of_mem Prod.fst h)

/-- Every entry of `l` carrying key `k` is exactly `(k, v)`. -/
def pinnedEntry {κ β : Type*} (l : List (κ × β)) (k : κ) (v : β) : Prop :=
  ∀ p ∈ l, p.1 = k → p = (k, v)

theorem setAssoc_eq_self {κ β : Type*} [DecidableEq κ] {l : List (κ × β)} {k : κ} {v : β}
    (hc : containsKey l k = true) (hp : pinnedEntry l k v) : setAssoc l k v = l := by
  unfold setAssoc
  rw [if_pos hc]
  calc l.map (fun p => if p.1 = k then (k, v) else p)
      = l.map id := List.map_congr_left (fun p hm => by
        by_cases h : p.1 = k
        · simp [h, (hp p hm h).symm]
        · simp [h])
    _ = l := List.map_id l

theorem pinnedEntry_setAssoc_self {κ β : Type*} [DecidableEq κ] (l : List (κ × β)) (k : κ)
    (v : β) : pinnedEntry (setAssoc l k v) k v := by
  unfold setAssoc
  by_cases hc : containsKey l k
  · rw [if_pos hc]
    rintro p hm hk
    obtain ⟨q, hq, rfl⟩ := List.mem_map.1 hm
    by_cases h : q.1 = k
    · simp [h]
    · simp only [h, if_false] at hk
  · rw [if_neg (by simpa using hc)]
    rintro p hm hk
    rcases List.mem_append.1 hm with h | h
    · exact absurd (hk ▸ containsKey_of_mem h) (by simpa using hc)
    · simpa using h

theorem pinnedEntry_setAssoc_ne {κ β : Type*} [DecidableEq κ] {l : List (κ × β)} {k' k : κ}
    {v v' : β} (h : k' ≠ k) (hp : pinnedEntry l k v) :
    pinnedEntry (setAssoc l k' v') k v := by
  unfold setAssoc
  by_cases hc : containsKey l k'
  · rw [if_pos hc]
    rintro p hm hk
    obtain ⟨q, hq, rfl⟩ := List.mem_map.1 hm
    by_cases hqk : q.1 = k'
    · simp only [hqk, if_true] at hk ⊢
      exact absurd hk h
    · simp only [hqk, if_false] at hk ⊢
      exact hp q hq hk
  · rw [if_neg (by simpa using hc)]
    rintro p hm hk
    rcases List.mem_append.1 hm with hml | hmr
    · exact hp p hml hk
    · simp only [List.mem_singleton] at hmr
      subst hmr
      exact absurd hk h

theorem containsKey_setAssoc_self {κ β : Type*} [DecidableEq κ] (l : List (κ × β)) (k : κ)
    (v : β) : containsKey (setAssoc l k v) k = true :=
  (containsKey_iff _ _).2 ((mem_keys_setAssoc l k k v).2 (Or.inl rfl))

theorem containsKey_setAssoc_mono {κ β : Type*} [DecidableEq κ] {l : List (κ × β)} {k k' : κ}
    (v' : β) (h : containsKey l k = true) : containsKey (setAssoc l k' v') k = true :=
  (containsKey_iff _ _).2 ((mem_keys_setAssoc l k' k v').2 (Or.inr ((containsKey_iff _ _).1 h)))

/-! ### Lemmas about the upsert building blocks -/

theorem validate_items_iff {μ : Type} (items : List (UpsertItem μ)) :
    validate_items items = true ↔ (items.map (·.id)).Nodup := by
  unfold validate_items
  rw [beq_iff_eq]
  constructor
  · intro h
    have hsub := List.dedup_sublist (items.map (·.id))
    have : (items.map (·.id)).dedup = items.map (·.id) := hsub.eq_of_length h
    exact this ▸ (items.map (·.id)).nodup_dedup
  · intro h
    rw [List.dedup_eq_self.2 h]

theorem applyRecords_cons {μ : Type} (rs : List (Int × Rec μ)) (it : UpsertItem μ)
    (items : List (UpsertItem μ)) :
    applyRecords rs (it :: items) =
      applyRecords (setAssoc rs it.id ⟨it.text, it.metadata⟩) items := rfl

theorem mem_keys_applyRecords {μ : Type} (rs : List (Int × Rec μ))
    (items : List (UpsertItem μ)) (i : Int) :
    i ∈ (applyRecords rs items).map Prod.fst ↔
      i ∈ rs.map Prod.fst ∨ i ∈ items.map (·.id) := by
  induction items generalizing rs with
  | nil => simp [applyRecords]
  | cons it rest ih =>
    rw [applyRecords_cons, ih, mem_keys_setAssoc]
    simp only [List.map_cons, List.mem_cons]
    tauto

theorem filterKey_applyRecords {μ : Type} (rs : List (Int × Rec μ))
    (items : List (UpsertItem μ)) (j : Int) (h : j ∉ items.map (·.id)) :
    (applyRecords rs items).filter (fun p => decide (p.1 = j)) =
      rs.filter (fun p => decide (p.1 = j)) := by
  induction items generalizing rs with
  | nil => rfl
  | cons it rest ih =>
    simp only [List.map_cons, List.mem_cons] at h
    push_neg at h
    rw [applyRecords_cons, ih _ h.2, filterKey_setAssoc_ne _ _ (Ne.symm h.1)]

theorem getAssoc_applyRecords {μ : Type} (rs : List (Int × Rec μ))
    (items : List (UpsertItem μ)) (j : Int) (h : j ∉ items.map (·.id)) :
    getAssoc (applyRecords rs items) j = getAssoc rs j := by
  induction items generalizing rs with
  | nil => rfl
  | cons it rest ih =>
    simp only [List.map_cons, List.mem_cons] at h
    push_neg at h
    rw [applyRecords_cons, ih _ h.2, getAssoc_setAssoc_ne _ _ (Ne.symm h.1)]

theorem applyRecords_pinned_preserved {μ : Type} {rs : List (Int × Rec μ)}
    {items : List (UpsertItem μ)} {k : Int} {v : Rec μ}
    (hne : ∀ it ∈ items, it.id ≠ k) (hc : containsKey rs k = true)
    (hp : pinnedEntry rs k v) :
    containsKey (applyRecords rs items) k = true ∧
      pinnedEntry (applyRecords rs items) k v := by
  induction items generalizing rs with
  | nil => exact ⟨hc, hp⟩
  | cons it rest ih =>
    rw [applyRecords_cons]
    have h1 : it.id ≠ k := hne it (List.mem_cons_self it rest)
    exact ih (fun it' h' => hne it' (List.mem_cons_of_mem it h'))
      (containsKey_setAssoc_mono _ hc) (pinnedEntry_setAssoc_ne h1 hp)

theorem applyRecords_pinned {μ : Type} (rs : List (Int × Rec μ))
    {items : List (UpsertItem μ)} {it : UpsertItem μ}
    (hnd : (items.map (·.id)).Nodup) (hit : it ∈ items) :
    containsKey (applyRecords rs items) it.id = true ∧
      pinnedEntry (applyRecords rs items) it.id ⟨it.text, it.metadata⟩ := by
  induction items generalizing rs with
  | nil => cases hit
  | cons a rest ih =>
    rw [applyRecords_cons]
    have hnd' : (∀ x ∈ rest, ¬ x.id = a.id) ∧ (rest.map (·.id)).Nodup := by
      simpa [List.nodup_cons] using hnd
    rcases List.mem_cons.1 hit with rfl | hmem
    · exact applyRecords_pinned_preserved (fun it' h' => hnd'.1 it' h')
        (containsKey_setAssoc_self _ _ _) (pinnedEntry_setAssoc_self _ _ _)
    · exact ih _ hnd'.2 hmem

theorem applyRecords_eq_self {μ : Type} {A : List (Int × Rec μ)}
    {items : List (UpsertItem μ)}
    (h : ∀ it ∈ items, setAssoc A it.id ⟨it.text, it.metadata⟩ = A) :
    applyRecords A items = A := by
  induction items with
  | nil => rfl
  | cons it rest ih =>
    rw [applyRecords_cons, h it (List.mem_cons_self it rest)]
    exact ih (fun it' h' => h it' (List.mem_cons_of_mem it h'))

theorem applyRecords_idem {μ : Type} (rs : List (Int × Rec μ))
    (items : List (UpsertItem μ)) (hnd : (items.map (·.id)).Nodup) :
    applyRecords (applyRecords rs items) items = applyRecords rs items := by
  refine applyRecords_eq_self (fun it hit => ?_)
  obtain ⟨hc, hp⟩ := applyRecords_pinned rs hnd hit
  exact setAssoc_eq_self hc hp

theorem removeIds_append (a b : List (Int × List ℝ)) (ids : List Int) :
    removeIds (a ++ b) ids = removeIds a ids ++ removeIds b ids :=
  List.filter_append _ _

theorem removeIds_removeIds (l : List (Int × List ℝ)) (ids : List Int) :
    removeIds (removeIds l ids) ids = removeIds l ids := by
  unfold removeIds
  rw [List.filter_filter]
  exact List.filter_congr (fun p _ => by cases decide (p.1 ∈ ids) <;> rfl)

theorem removeIds_zip_self (ids : List Int) (vs : List (List ℝ)) :
    removeIds (ids.zip vs) ids = [] := by
  rw [removeIds, List.filter_eq_nil_iff]
  intro p hp
  have := (List.of_mem_zip (by exact hp)).1
  simp [this]

theorem removeThenAdd_idem (vecs : List (Int × List ℝ)) (ids : List Int)
    (vs : List (List ℝ)) :
    removeThenAdd (removeThenAdd vecs ids vs) ids vs = removeThenAdd vecs ids vs := by
  unfold removeThenAdd
  rw [removeIds_append, removeIds_removeIds, removeIds_zip_self, List.append_nil]

theorem mem_keys_removeIds (l : List (Int × List ℝ)) (ids : List Int) (i : Int) :
    i ∈ (removeIds l ids).map Prod.fst ↔ i ∈ l.map Prod.fst ∧ i ∉ ids := by
  unfold removeIds
  constructor
  · intro h
    obtain ⟨p, hp, rfl⟩ := List.mem_map.1 h
    have := List.mem_filter.1 hp
    refine ⟨List.mem_map_of_mem Prod.fst this.1, ?_⟩
    simpa using this.2
  · rintro ⟨h1, h2⟩
    obtain ⟨p, hp, rfl⟩ := List.mem_map.1 h1
    exact List.mem_map_of_mem Prod.fst (List.mem_filter.2 ⟨hp, by simpa using h2⟩)

theorem mem_keys_removeThenAdd (vecs : List (Int × List ℝ)) (ids : List Int)
    (vs : List (List ℝ)) (hlen : ids.length ≤ vs.length) (i : Int) :
    i ∈ (removeThenAdd vecs ids vs).map Prod.fst ↔
      (i ∈ vecs.map Prod.fst ∧ i ∉ ids) ∨ i ∈ ids := by
  unfold removeThenAdd
  rw [List.map_append, List.mem_append, mem_keys_removeIds,
    List.map_fst_zip ids vs hlen]

theorem filterKey_removeThenAdd (vecs : List (Int × List ℝ)) (ids : List Int)
    (vs : List (List ℝ)) (j : Int) (hj : j ∉ ids) :
    (removeThenAdd vecs ids vs).filter (fun p => decide (p.1 = j)) =
      vecs.filter (fun p => decide (p.1 = j)) := by
  unfold removeThenAdd removeIds
  rw [List.filter_append, List.filter_filter]
  have h1 : List.filter (fun p => decide (p.1 = j) && !decide (p.1 ∈ ids)) vecs =
      List.filter (fun p => decide (p.1 = j)) vecs := by
    refine List.filter_congr (fun p _ => ?_)
    by_cases h : p.1 = j
    · subst h; simp [hj]
    · simp [h]
  have h2 : List.filter (fun p => decide (p.1 = j)) (ids.zip vs) = [] := by
    rw [List.filter_eq_nil_iff]
    intro p hp
    have := (List.of_mem_zip (by exact hp)).1
    simp only [decide_eq_true_eq]
    intro heq
    exact hj (heq ▸ this)
  rw [h1, h2, List.append_nil]

/-! ### Lemmas about metric handling and normalization -/

theorem effMetric_idem (m : String) : effMetric (effMetric m) = effMetric m := by
  unfold effMetric
  by_cases h : m = "cosine" ∨ m = "l2" ∨ m = "ip"
  · rw [if_pos h, if_pos h]
  · rw [if_neg h]
    norm_num

theorem sumsq_nonneg (v : List ℝ) : 0 ≤ sumsq v := by
  refine List.sum_nonneg (fun x hx => ?_)
  obtain ⟨y, _, rfl⟩ := List.mem_map.1 hx
  exact mul_self_nonneg y

theorem sumsq_map_div (v : List ℝ) (c : ℝ) :
    sumsq (v.map (fun x => x / c)) = sumsq v / (c * c) := by
  unfold sumsq
  rw [List.map_map]
  induction v with
  | nil => simp
  | cons x rest ih =>
    simp only [List.map_cons, List.sum_cons, Function.comp] at ih ⊢
    rw [ih, div_mul_div_comm, div_add_div_same]

theorem sumsq_normalize_of_ne_zero {v : List ℝ} (h : sumsq v ≠ 0) :
    sumsq (normalize_L2 v) = 1 := by
  have hpos : 0 < sumsq v := lt_of_le_of_ne (sumsq_nonneg v) (Ne.symm h)
  unfold normalize_L2
  rw [if_pos hpos, sumsq_map_div, Real.mul_self_sqrt (le_of_lt hpos), div_self h]

theorem normalize_of_sumsq_eq_zero {v : List ℝ} (h : sumsq v = 0) :
    normalize_L2 v = v := by
  unfold normalize_L2
  rw [if_neg (by rw [h]; exact lt_irrefl 0)]

theorem sumsq_of_all_zero {v : List ℝ} (h : ∀ x ∈ v, x = 0) : sumsq v = 0 := by
  refine List.sum_eq_zero (fun x hx => ?_)
  obtain ⟨y, hy, rfl⟩ := List.mem_map.1 hx
  rw [h y hy, mul_zero]

theorem normVecs_length (m : String) (vs : List (List ℝ)) :
    (normVecs m vs).length = vs.length := by
  unfold normVecs
  by_cases h : m = "cosine" <;> simp [h]

theorem npShape_all_lengths {vs : List (List ℝ)} {L : Nat} (h : npShape vs = some L) :
    ∀ v ∈ vs, v.length = L := by
  cases vs with
  | nil => simp [npShape] at h
  | cons v rest =>
    simp only [npShape] at h
    by_cases hall : rest.all (fun w => w.length == v.length)
    · rw [if_pos hall] at h
      obtain rfl : v.length = L := by simpa using h
      intro w hw
      rcases List.mem_cons.1 hw with rfl | hw
      · rfl
      · simpa using (List.all_eq_true.1 hall) w hw
    · rw [if_neg hall] at h
      cases h

/-! ### Inversion of a successful upsert -/

theorem upsert_ok_inversion {μ : Type} {st st' : Store μ} {items : List (UpsertItem μ)}
    {r : UpsertResult} (h : upsert_items st items = .ok (st', r)) :
    validate_items items = true ∧
      npShape (items.map (·.vector)) = some st.dim ∧
      st' = upsertState st items ∧ r = upsertReport st items := by
  unfold upsert_items at h
  split at h
  · rename_i hv
    split at h
    · rename_i l heq
      split at h
      · rename_i hL
        subst hL
        simp only [Except.ok.injEq, Prod.mk.injEq] at h
        exact ⟨hv, heq, h.1.symm, h.2.symm⟩
      · simp at h
    · simp at h
  · simp at h

theorem upsert_ok_build {μ : Type} (st : Store μ) (items : List (UpsertItem μ))
    (hv : validate_items items = true)
    (hs : npShape (items.map (·.vector)) = some st.dim) :
    upsert_items st items = .ok (upsertState st items, upsertReport st items) := by
  unfold upsert_items
  rw [if_pos hv, hs]
  simp

/-! ### Claim C5: name sanitization -/

theorem head?_dropWhile_not {p : Char → Bool} {l : List Char} {c : Char}
    (h : (l.dropWhile p).head? = some c) : p c = false := by
  induction l with
  | nil => cases h
  | cons x rest ih =>
    rw [List.dropWhile_cons] at h
    by_cases hx : p x
    · rw [if_pos (by simpa using hx)] at h
      exact ih h
    · rw [if_neg (by simpa using hx)] at h
      obtain rfl : x = c := by simpa using h
      simpa using hx

theorem getLast?_dropWhile {p : Char → Bool} {l : List Char}
    (h : l.dropWhile p ≠ []) : (l.dropWhile p).getLast? = l.getLast? := by
  induction l with
  | nil => simp at h
  | cons x rest ih =>
    rw [List.dropWhile_cons]
    by_cases hx : p x
    · rw [if_pos (by simpa using hx)]
      rw [List.dropWhile_cons, if_pos (by simpa using hx)] at h
      cases rest with
      | nil => simp at h
      | cons y ys => rw [ih h, List.getLast?_cons_cons]
    · rw [if_neg (by simpa using hx)]

theorem subRun_allowed {s : List Char} {b : Bool} {c : Char} (h : c ∈ subRun s b) :
    allowedChar c = true := by
  induction s generalizing b with
  | nil => cases h
  | cons x rest ih =>
    rw [subRun] at h
    by_cases hx : allowedChar x
    · rw [if_pos hx] at h
      rcases List.mem_cons.1 h with rfl | h
      · exact hx
      · exact ih h
    · rw [if_neg hx] at h
      by_cases hb : b
      · rw [if_pos (by simpa using hb)] at h
        exact ih h
      · rw [if_neg (by simpa using hb)] at h
        rcases List.mem_cons.1 h with rfl | h
        · decide
        · exact ih h

theorem mem_stripSeps {s : List Char} {c : Char} (h : c ∈ stripSeps s) : c ∈ s := by
  unfold stripSeps at h
  rw [List.mem_reverse] at h
  have h1 := (List.dropWhile_sublist sepChar).mem h
  rw [List.mem_reverse] at h1
  exact (List.dropWhile_sublist sepChar).mem h1

theorem head?_stripSeps_not_sep {s : List Char} {c : Char}
    (hne : stripSeps s ≠ []) (h : (stripSeps s).head? = some c) : sepChar c = false := by
  unfold stripSeps at hne h
  rw [List.head?_reverse] at h
  have hu : (s.dropWhile sepChar).reverse.dropWhile sepChar ≠ [] := by
    intro he
    exact hne (by rw [he]; rfl)
  rw [getLast?_dropWhile hu, List.getLast?_reverse] at h
  exact head?_dropWhile_not h

theorem getLast?_stripSeps_not_sep {s : List Char} {c : Char}
    (h : (stripSeps s).getLast? = some c) : sepChar c = false := by
  unfold stripSeps at h
  rw [List.getLast?_reverse] at h
  exact head?_dropWhile_not h

/-- Counterexample to claim C5.  The specification says characters outside
`[a-zA-Z0-9._-]` are REMOVED; the code substitutes a dash for each maximal run
of them: on input `"a b"` the code produces `"a-b"`, while removal would
produce `"ab"`. -/
theorem safe_db_name_counterexample :
    _safe_db_name "a b" = .ok "a-b" ∧ specSanitize "a b" = ['a', 'b'] ∧
      ("a-b" : String).data ≠ ['a', 'b'] :=
  ⟨rfl, by decide, by decide⟩

/-- Claim C5 (amended): for every name supplied, sanitization strips
surrounding whitespace and replaces each maximal run of characters other than
alphanumerics, `.`, `_`, `-` by a single `-` (so the result consists only of
such characters), then strips leading and trailing separator characters; if
the result is empty the operation fails with `InvalidName`, otherwise the
sanitized name is used. -/
theorem safe_db_name_sanitizes (s : String) :
    (stripSeps (subRun (stripWs s.data) false) = [] →
      _safe_db_name s = .error .invalidName) ∧
    ∀ r, _safe_db_name s = .ok r →
      r.data = stripSeps (subRun (stripWs s.data) false) ∧
      r.data ≠ [] ∧
      (∀ c ∈ r.data, allowedChar c = true) ∧
      (∀ c, r.data.head? = some c → sepChar c = false) ∧
      (∀ c, r.data.getLast? = some c → sepChar c = false) := by
  constructor
  · intro he
    unfold _safe_db_name
    rw [if_pos he]
  · intro r hr
    unfold _safe_db_name at hr
    by_cases he : stripSeps (subRun (stripWs s.data) false) = []
    · rw [if_pos he] at hr
      cases hr
    · rw [if_neg he] at hr
      have hd : r.data = stripSeps (subRun (stripWs s.data) false) := by
        have : String.mk (stripSeps (subRun (stripWs s.data) false)) = r := by
          injection hr
        rw [← this]
      refine ⟨hd, by rw [hd]; exact he, ?_, ?_, ?_⟩
      · intro c hc
        rw [hd] at hc
        exact subRun_allowed (mem_stripSeps hc)
      · intro c hc
        rw [hd] at hc
        exact head?_stripSeps_not_sep he hc
      · intro c hc
        rw [hd] at hc
        exact getLast?_stripSeps_not_sep hc

/-- Witness for `safe_db_name_sanitizes` at the concrete input `"ab!c"`. -/
theorem safe_db_name_sanitizes_witness :
    _safe_db_name "ab!c" = .ok "ab-c" ∧ ("ab-c" : String).data ≠ [] :=
  ⟨rfl, (((safe_db_name_sanitizes "ab!c").2 "ab-c" rfl).2).1⟩

/-! ### Claim C2: persistence discipline of `_save_meta` -/

/-- Counterexample to claim C2.  `_save_meta` writes the sidecar with a
direct truncating `write_text` on the target path (no temporary file, no
rename), so a failure during the write leaves the prior file truncated: with
prior contents `"OLD"`, a crash at the very start of the write leaves `""`,
not `"OLD"`. -/
theorem save_meta_not_atomic_counterexample :
    atomicReplaceDiscipline (_save_meta_ops "/data/idx.faiss" "NEW")
        "/data/idx.meta.json" = false ∧
    writesDirectlyTo (_save_meta_ops "/data/idx.faiss" "NEW")
        "/data/idx.meta.json" = true ∧
    getAssoc [("/data/idx.meta.json", "OLD")] "/data/idx.meta.json" = some "OLD" ∧
    getAssoc (runOpsCrash [("/data/idx.meta.json", "OLD")]
        (_save_meta_ops "/data/idx.faiss" "NEW") 1 0) "/data/idx.meta.json" = some "" ∧
    ("" : String) ≠ "OLD" :=
  ⟨by decide, by decide, by decide, by decide, by decide⟩

/-- Claim C2 (amended): metadata persistence writes the rendered payload
directly onto the sidecar path (in-place truncating write, not
write-then-atomic-replace); a completed persist stores the payload, and a
persist that fails during the write leaves the file holding a prefix of the
NEW content, so the prior on-disk contents are not preserved on failure. -/
theorem save_meta_in_place_write (db payload : String) (fs : List (String × String))
    (k : Nat) :
    writesDirectlyTo (_save_meta_ops db payload) (_meta_path db) = true ∧
    atomicReplaceDiscipline (_save_meta_ops db payload) (_meta_path db) = false ∧
    getAssoc (runOps fs (_save_meta_ops db payload)) (_meta_path db) = some payload ∧
    getAssoc (runOpsCrash fs (_save_meta_ops db payload) 1 k) (_meta_path db) =
      some (payload.take k) := by
  refine ⟨?_, ?_, ?_, ?_⟩
  · simp [writesDirectlyTo, _save_meta_ops]
  · simp [atomicReplaceDiscipline, writesDirectlyTo, _save_meta_ops]
  · show getAssoc (setAssoc fs (_meta_path db) payload) (_meta_path db) = some payload
    exact getAssoc_setAssoc_self _ _ _
  · show getAssoc (setAssoc fs (_meta_path db) (payload.take k)) (_meta_path db) =
      some (payload.take k)
    exact getAssoc_setAssoc_self _ _ _

/-! ### Claim C9: `_load_meta` -/

/-- Counterexample to claim C9.  A sidecar that parses as the JSON dict
`{"records": 5}` is neither returned as stored nor rejected with
`CorruptMetadata`: `_load_meta` silently replaces the non-dict `records`
field by the empty dict. -/
theorem load_meta_counterexample :
    _load_meta (some (some (Json.obj [("records", Json.num 5)]))) =
      .ok (Json.obj [("records", Json.obj [])]) ∧
    Json.obj [("records", Json.obj [])] ≠ Json.obj [("records", Json.num 5)] ∧
    _load_meta (some (some (Json.obj [("records", Json.num 5)]))) ≠
      .error .corruptMetadata := by
  refine ⟨rfl, by simp, ?_⟩
  intro h
  rw [show _load_meta (some (some (Json.obj [("records", Json.num 5)]))) =
    .ok (Json.obj [("records", Json.obj [])]) from rfl] at h
  cases h

/-- Claim C9 (amended): `_load_meta` returns the empty default when the
sidecar file does not exist, fails with `CorruptMetadata` when the file
cannot be parsed or parses to a non-dict, returns the stored dict verbatim
when its `records` field is a dict, and otherwise returns the stored dict
with the `records` field silently replaced by the empty dict (all other
fields untouched). -/
theorem load_meta_spec (f : Option (Option Json)) :
    (f = none → _load_meta f = .ok metaDefault) ∧
    (f = some none → _load_meta f = .error .corruptMetadata) ∧
    (∀ j, f = some (some j) → j.isObj = false → _load_meta f = .error .corruptMetadata) ∧
    (∀ kvs rs, f = some (some (.obj kvs)) → getAssoc kvs "records" = some (.obj rs) →
      _load_meta f = .ok (.obj kvs)) ∧
    (∀ kvs, f = some (some (.obj kvs)) →
      (∀ rs, getAssoc kvs "records" ≠ some (.obj rs)) →
      _load_meta f = .ok (.obj (setAssoc kvs "records" (.obj []))) ∧
      ∀ s, s ≠ "records" →
        getAssoc (setAssoc kvs "records" (.obj [])) s = getAssoc kvs s) := by
  refine ⟨?_, ?_, ?_, ?_, ?_⟩
  · rintro rfl; rfl
  · rintro rfl; rfl
  · rintro j rfl hj
    cases j <;> first | rfl | cases hj
  · rintro kvs rs rfl hrec
    simp only [_load_meta]
    rw [hrec]
  · rintro kvs rfl hrec
    constructor
    · cases hg : getAssoc kvs "records" with
      | none => simp only [_load_meta]
      | some j =>
        cases j with
        | obj rs => exact absurd hg (hrec rs)
        | null => simp only [_load_meta]
        | bool b => simp only [_load_meta]
        | num n => simp only [_load_meta]
        | str s => simp only [_load_meta]
        | arr xs => simp only [_load_meta]
    · intro s hs
      exact getAssoc_setAssoc_ne _ _ (Ne.symm hs)

/-- Witness for `load_meta_spec` at the concrete inputs: a missing file and a
dict whose `records` field is a dict. -/
theorem load_meta_spec_witness :
    _load_meta none = .ok metaDefault ∧
    _load_meta (some (some (Json.obj [("records", Json.obj []), ("metric", Json.str "l2")]))) =
      .ok (Json.obj [("records", Json.obj []), ("metric", Json.str "l2")]) :=
  ⟨(load_meta_spec none).1 rfl,
    (load_meta_spec _).2.2.2.1 [("records", Json.obj []), ("metric", Json.str "l2")] [] rfl rfl⟩

/-! ### Claim C4: duplicate ids -/

/-- Claim C4: a batch in which some id occurs more than once fails with
`DuplicateId` (pydantic's `validate_items` runs before the endpoint body, so
neither store is touched), and a batch with pairwise-distinct ids passes the
duplicate check. -/
theorem duplicate_id_rejected {μ : Type} (st : Store μ) (items : List (UpsertItem μ)) :
    (¬ (items.map (·.id)).Nodup → upsert_items st items = .error .duplicateId) ∧
    ((items.map (·.id)).Nodup → validate_items items = true) := by
  constructor
  · intro h
    unfold upsert_items
    rw [if_neg (fun hv => h ((validate_items_iff items).1 hv))]
  · exact (validate_items_iff items).2

/-- Witness for `duplicate_id_rejected`: the batch `[id 7, id 7]` is
rejected, and a batch with ids `[1, 2]` passes the duplicate check. -/
theorem duplicate_id_rejected_witness :
    upsert_items (μ := Unit) ⟨2, [], [], some 2, "l2"⟩
        [⟨7, "a", [1, 0], ()⟩, ⟨7, "b", [0, 1], ()⟩] = .error .duplicateId ∧
    validate_items (μ := Unit) [⟨1, "a", [1, 0], ()⟩, ⟨2, "b", [0, 1], ()⟩] = true :=
  ⟨(duplicate_id_rejected ⟨2, [], [], some 2, "l2"⟩
      [⟨7, "a", [1, 0], ()⟩, ⟨7, "b", [0, 1], ()⟩]).1 (by decide),
    (duplicate_id_rejected (⟨2, [], [], some 2, "l2"⟩ : Store Unit)
      [⟨1, "a", [1, 0], ()⟩, ⟨2, "b", [0, 1], ()⟩]).2 (by decide)⟩

/-! ### Claim C3: dimension validation -/

/-- Counterexample to claim C3.  On the ragged batch `[(id 1, [1, 2]),
(id 2, [1, 2, 3])]` against a dimension-2 index -- whose first offending item
has dimension 3 -- `np.array(..., dtype=np.float32)` raises an unhandled
`ValueError` (a generic HTTP 500) before the dimension check ever runs, so
the operation does not fail with `DimensionMismatch` at all, let alone one
naming expected 2 and actual 3. -/
theorem dimension_mismatch_counterexample :
    upsert_items (μ := Unit) ⟨2, [], [], some 2, "l2"⟩
        [⟨1, "a", [1, 2], ()⟩, ⟨2, "b", [1, 2, 3], ()⟩] = .error .valueError ∧
    (⟨2, "b", [1, 2, 3], ()⟩ : UpsertItem Unit).vector.length = 3 ∧
    UpsertError.valueError ≠ .dimensionMismatch 2 3 :=
  ⟨rfl, rfl, by decide⟩

/-- Claim C3 (amended): for a duplicate-free batch containing some vector
whose length differs from the index's dimension, no success state is ever
produced (stored state unchanged); when all vectors of the batch share a
common length the operation fails with `DimensionMismatch` naming the
expected dimension and that common length -- which is the length of the first
(indeed every) offending item -- and when the batch is ragged it instead
fails with the unhandled `ValueError` raised by `np.array` (HTTP 500), before
the dimension check. -/
theorem dimension_mismatch_rejects {μ : Type} (st : Store μ) (items : List (UpsertItem μ))
    (hv : validate_items items = true)
    (hbad : ∃ it ∈ items, it.vector.length ≠ st.dim) :
    (∀ L, npShape (items.map (·.vector)) = some L →
      upsert_items st items = .error (.dimensionMismatch st.dim L) ∧
      ∀ it ∈ items, it.vector.length = L) ∧
    (npShape (items.map (·.vector)) = none →
      upsert_items st items = .error .valueError) ∧
    ∀ st' r, upsert_items st items ≠ .ok (st', r) := by
  obtain ⟨it, hit, hlen⟩ := hbad
  refine ⟨?_, ?_, ?_⟩
  · intro L hs
    have hall : ∀ it' ∈ items, it'.vector.length = L := fun it' hit' =>
      npShape_all_lengths hs it'.vector (List.mem_map_of_mem (·.vector) hit')
    have hL : ¬ L = st.dim := fun he => hlen (he ▸ hall it hit)
    refine ⟨?_, hall⟩
    unfold upsert_items
    rw [if_pos hv, hs]
    simp [hL]
  · intro hs
    unfold upsert_items
    rw [if_pos hv, hs]
  · intro st' r hok
    obtain ⟨-, hs, -, -⟩ := upsert_ok_inversion hok
    exact hlen (npShape_all_lengths hs it.vector (List.mem_map_of_mem (·.vector) hit))

/-- Witness for `dimension_mismatch_rejects`: a rectangular one-item batch of
dimension 3 against a dimension-2 index is rejected with expected 2,
actual 3. -/
theorem dimension_mismatch_rejects_witness :
    validate_items (μ := Unit) [⟨1, "a", [1, 2, 3], ()⟩] = true ∧
    upsert_items (μ := Unit) ⟨2, [], [], some 2, "l2"⟩ [⟨1, "a", [1, 2, 3], ()⟩] =
      .error (.dimensionMismatch 2 3) := by
  refine ⟨by decide, ?_⟩
  exact (((dimension_mismatch_rejects (μ := Unit) ⟨2, [], [], some 2, "l2"⟩
    [⟨1, "a", [1, 2, 3], ()⟩] (by decide)
    ⟨⟨1, "a", [1, 2, 3], ()⟩, List.mem_singleton.2 rfl, by decide⟩).1) 3 rfl).1

/-! ### Claim C1: id consistency between the two stores -/

/-- Claim C1: if the vector index and the metadata records hold the same set
of ids before a successful upsert, they hold the same set of ids after it:
the upsert removes-then-adds exactly the batch ids in the index and
overwrites/appends exactly the batch ids in the records. -/
theorem upsert_id_consistency {μ : Type} (st st' : Store μ) (items : List (UpsertItem μ))
    (r : UpsertResult) (hok : upsert_items st items = .ok (st', r))
    (h0 : ∀ i : Int, i ∈ st.vecs.map Prod.fst ↔ i ∈ st.records.map Prod.fst) :
    ∀ i : Int, i ∈ st'.vecs.map Prod.fst ↔ i ∈ st'.records.map Prod.fst := by
  obtain ⟨hv, hs, hst, hr⟩ := upsert_ok_inversion hok
  subst hst
  intro i
  show i ∈ (newVecsOf st items).map Prod.fst ↔
    i ∈ (applyRecords st.records items).map Prod.fst
  rw [mem_keys_applyRecords]
  unfold newVecsOf
  rw [mem_keys_removeThenAdd _ _ _ (by rw [normVecs_length]; simp), h0 i]
  tauto

/-- Witness for `upsert_id_consistency` on a concrete one-item upsert into a
store holding id 5. -/
theorem upsert_id_consistency_witness :
    upsert_items (μ := Unit) ⟨2, [(5, [1, 0])], [(5, ⟨"old", ()⟩)], some 2, "l2"⟩
        [⟨1, "a", [2, 3], ()⟩] =
      .ok (⟨2, [(5, [1, 0]), (1, [2, 3])], [(5, ⟨"old", ()⟩), (1, ⟨"a", ()⟩)], some 2, "l2"⟩,
        ⟨1, 2, 2, "l2"⟩) ∧
    ((1 : Int) ∈ ((⟨2, [(5, [1, 0]), (1, [2, 3])], [(5, ⟨"old", ()⟩), (1, ⟨"a", ()⟩)],
        some 2, "l2"⟩ : Store Unit).vecs.map Prod.fst) ↔
      (1 : Int) ∈ ((⟨2, [(5, [1, 0]), (1, [2, 3])], [(5, ⟨"old", ()⟩), (1, ⟨"a", ()⟩)],
        some 2, "l2"⟩ : Store Unit).records.map Prod.fst)) := by
  refine ⟨rfl, ?_⟩
  exact upsert_id_consistency ⟨2, [(5, [1, 0])], [(5, ⟨"old", ()⟩)], some 2, "l2"⟩
    ⟨2, [(5, [1, 0]), (1, [2, 3])], [(5, ⟨"old", ()⟩), (1, ⟨"a", ()⟩)], some 2, "l2"⟩
    [⟨1, "a", [2, 3], ()⟩] ⟨1, 2, 2, "l2"⟩ rfl (by intro i; simp) 1

/-! ### Claim C10: untouched ids keep their vector and record -/

/-- Claim C10: after a successful upsert, every id not occurring in the batch
keeps exactly its prior entries in the vector index (all occurrences, in
order) and its prior record in the metadata store. -/
theorem upsert_frame {μ : Type} (st st' : Store μ) (items : List (UpsertItem μ))
    (r : UpsertResult) (j : Int) (hok : upsert_items st items = .ok (st', r))
    (hj : j ∉ items.map (·.id)) :
    st'.vecs.filter (fun p => decide (p.1 = j)) =
      st.vecs.filter (fun p => decide (p.1 = j)) ∧
    st'.records.filter (fun p => decide (p.1 = j)) =
      st.records.filter (fun p => decide (p.1 = j)) ∧
    getAssoc st'.records j = getAssoc st.records j := by
  obtain ⟨hv, hs, hst, hr⟩ := upsert_ok_inversion hok
  subst hst
  refine ⟨?_, ?_, ?_⟩
  · show (newVecsOf st items).filter _ = _
    unfold newVecsOf
    exact filterKey_removeThenAdd _ _ _ j hj
  · exact filterKey_applyRecords _ _ j hj
  · exact getAssoc_applyRecords _ _ j hj

/-- Witness for `upsert_frame`: id 5 keeps its vector and record across an
upsert of id 1. -/
theorem upsert_frame_witness :
    upsert_items (μ := Unit) ⟨2, [(5, [1, 0])], [(5, ⟨"old", ()⟩)], some 2, "l2"⟩
        [⟨1, "a", [2, 3], ()⟩] =
      .ok (⟨2, [(5, [1, 0]), (1, [2, 3])], [(5, ⟨"old", ()⟩), (1, ⟨"a", ()⟩)], some 2, "l2"⟩,
        ⟨1, 2, 2, "l2"⟩) ∧
    getAssoc ((⟨2, [(5, [1, 0]), (1, [2, 3])], [(5, ⟨"old", ()⟩), (1, ⟨"a", ()⟩)],
        some 2, "l2"⟩ : Store Unit).records) 5 =
      getAssoc ((⟨2, [(5, [1, 0])], [(5, ⟨"old", ()⟩)], some 2, "l2"⟩ : Store Unit).records) 5 := by
  refine ⟨rfl, ?_⟩
  exact (upsert_frame ⟨2, [(5, [1, 0])], [(5, ⟨"old", ()⟩)], some 2, "l2"⟩
    ⟨2, [(5, [1, 0]), (1, [2, 3])], [(5, ⟨"old", ()⟩), (1, ⟨"a", ()⟩)], some 2, "l2"⟩
    [⟨1, "a", [2, 3], ()⟩] ⟨1, 2, 2, "l2"⟩ 5 rfl (by decide)).2.2

/-! ### Claim C7: idempotence of upsert -/

/-- Claim C7: a successful upsert is idempotent — re-applying the same batch
to the post-upsert store succeeds and returns the identical store and the
identical report (same `total`, same stored vectors and records). -/
theorem upsert_idempotent {μ : Type} (st st1 : Store μ) (items : List (UpsertItem μ))
    (r1 : UpsertResult) (hok : upsert_items st items = .ok (st1, r1)) :
    upsert_items st1 items = .ok (st1, r1) := by
  obtain ⟨hv, hs, hst, hr⟩ := upsert_ok_inversion hok
  subst hst
  subst hr
  have hs2 : npShape (items.map (·.vector)) = some (upsertState st items).dim := hs
  rw [upsert_ok_build (upsertState st items) items hv hs2]
  have hmetric : effMetric (upsertState st items).metaMetric = effMetric st.metaMetric :=
    effMetric_idem st.metaMetric
  have hvecs : newVecsOf (upsertState st items) items = newVecsOf st items := by
    show removeThenAdd (newVecsOf st items) (items.map (·.id))
        (normVecs (effMetric (upsertState st items).metaMetric) (items.map (·.vector))) =
      newVecsOf st items
    rw [hmetric]
    show removeThenAdd (removeThenAdd st.vecs (items.map (·.id))
        (normVecs (effMetric st.metaMetric) (items.map (·.vector)))) (items.map (·.id))
        (normVecs (effMetric st.metaMetric) (items.map (·.vector))) = _
    rw [removeThenAdd_idem]
    rfl
  have hrecs : applyRecords (upsertState st items).records items =
      applyRecords st.records items := by
    show applyRecords (applyRecords st.records items) items = applyRecords st.records items
    exact applyRecords_idem st.records items ((validate_items_iff items).1 hv)
  have hstate : upsertState (upsertState st items) items = upsertState st items := by
    show Store.mk (upsertState st items).dim (newVecsOf (upsertState st items) items)
        (applyRecords (upsertState st items).records items)
        (some (upsertState st items).dim)
        (effMetric (upsertState st items).metaMetric) = upsertState st items
    rw [hvecs, hrecs, hmetric]
    rfl
  have hreport : upsertReport (upsertState st items) items = upsertReport st items := by
    show UpsertResult.mk items.length (newVecsOf (upsertState st items) items).length
        (upsertState st items).dim (effMetric (upsertState st items).metaMetric) =
      upsertReport st items
    rw [hvecs, hmetric]
    rfl
  rw [hstate, hreport]

/-- Witness for `upsert_idempotent` on a concrete one-item upsert. -/
theorem upsert_idempotent_witness :
    upsert_items (μ := Unit) ⟨2, [(5, [1, 0])], [(5, ⟨"old", ()⟩)], some 2, "l2"⟩
        [⟨1, "a", [2, 3], ()⟩] =
      .ok (⟨2, [(5, [1, 0]), (1, [2, 3])], [(5, ⟨"old", ()⟩), (1, ⟨"a", ()⟩)], some 2, "l2"⟩,
        ⟨1, 2, 2, "l2"⟩) ∧
    upsert_items (μ := Unit)
        ⟨2, [(5, [1, 0]), (1, [2, 3])], [(5, ⟨"old", ()⟩), (1, ⟨"a", ()⟩)], some 2, "l2"⟩
        [⟨1, "a", [2, 3], ()⟩] =
      .ok (⟨2, [(5, [1, 0]), (1, [2, 3])], [(5, ⟨"old", ()⟩), (1, ⟨"a", ()⟩)], some 2, "l2"⟩,
        ⟨1, 2, 2, "l2"⟩) := by
  refine ⟨rfl, ?_⟩
  exact upsert_idempotent ⟨2, [(5, [1, 0])], [(5, ⟨"old", ()⟩)], some 2, "l2"⟩
    ⟨2, [(5, [1, 0]), (1, [2, 3])], [(5, ⟨"old", ()⟩), (1, ⟨"a", ()⟩)], some 2, "l2"⟩
    [⟨1, "a", [2, 3], ()⟩] ⟨1, 2, 2, "l2"⟩ rfl

/-! ### Claim C6: cosine normalization -/

/-- Claim C6: on an index whose sidecar metric is `cosine`, a successful
upsert stores for each batch item the L2-normalized vector; the stored
vector's squared norm (hence its norm) is 1 whenever the input vector is
non-zero, and a zero input vector is stored unchanged. -/
theorem cosine_upsert_normalizes {μ : Type} (st st' : Store μ)
    (items : List (UpsertItem μ)) (r : UpsertResult) (it : UpsertItem μ)
    (hm : st.metaMetric = "cosine")
    (hok : upsert_items st items = .ok (st', r)) (hit : it ∈ items) :
    (it.id, normalize_L2 it.vector) ∈ st'.vecs ∧
    (sumsq it.vector ≠ 0 → sumsq (normalize_L2 it.vector) = 1 ∧
      Real.sqrt (sumsq (normalize_L2 it.vector)) = 1) ∧
    ((∀ x ∈ it.vector, x = 0) → normalize_L2 it.vector = it.vector) := by
  obtain ⟨hv, hs, hst, hr⟩ := upsert_ok_inversion hok
  subst hst
  have hcos : effMetric st.metaMetric = "cosine" := by rw [hm]; rfl
  refine ⟨?_, ?_, ?_⟩
  · show (it.id, normalize_L2 it.vector) ∈ newVecsOf st items
    unfold newVecsOf removeThenAdd
    refine List.mem_append_right _ ?_
    unfold normVecs
    rw [hcos, if_pos rfl, List.map_map, List.zip_map']
    exact List.mem_map_of_mem _ hit
  · intro hnz
    refine ⟨sumsq_normalize_of_ne_zero hnz, ?_⟩
    rw [sumsq_normalize_of_ne_zero hnz]
    exact Real.sqrt_one
  · intro hz
    exact normalize_of_sumsq_eq_zero (sumsq_of_all_zero hz)

/-- Witness for `cosine_upsert_normalizes`: upserting `[3, 4]` into a cosine
index stores its normalization, whose squared norm is 1. -/
theorem cosine_upsert_normalizes_witness :
    upsert_items (μ := Unit) ⟨2, [], [], some 2, "cosine"⟩ [⟨1, "a", [3, 4], ()⟩] =
      .ok (⟨2, [(1, normalize_L2 [3, 4])], [(1, ⟨"a", ()⟩)], some 2, "cosine"⟩,
        ⟨1, 1, 2, "cosine"⟩) ∧
    (1, normalize_L2 ([3, 4] : List ℝ)) ∈
      ((⟨2, [(1, normalize_L2 [3, 4])], [(1, ⟨"a", ()⟩)], some 2, "cosine"⟩ : Store Unit).vecs) ∧
    sumsq (normalize_L2 ([3, 4] : List ℝ)) = 1 := by
  have hnz : sumsq ([3, 4] : List ℝ) ≠ 0 := by
    have h25 : sumsq ([3, 4] : List ℝ) = 25 := by
      simp [sumsq]
      norm_num
    rw [h25]
    norm_num
  have h := cosine_upsert_normalizes (μ := Unit) ⟨2, [], [], some 2, "cosine"⟩
    ⟨2, [(1, normalize_L2 [3, 4])], [(1, ⟨"a", ()⟩)], some 2, "cosine"⟩
    [⟨1, "a", [3, 4], ()⟩] ⟨1, 1, 2, "cosine"⟩ ⟨1, "a", [3, 4], ()⟩
    rfl rfl (List.mem_singleton.2 rfl)
  exact ⟨rfl, h.1, (h.2.1 hnz).1⟩

/-! ### Claim C8: pagination of `get_content` -/

theorem join_take_slices {α : Type*} (l : List α) (lim : Nat) (k : Nat) :
    ((List.range k).map (fun i => (l.drop (i * lim)).take lim)).flatten = l.take (k * lim) := by
  induction k with
  | zero => simp
  | succ k ih =>
    rw [List.range_succ, List.map_append, List.flatten_append, ih]
    simp only [List.map_cons, List.map_nil, List.flatten_cons, List.flatten_nil, List.append_nil]
    rw [Nat.succ_mul, List.take_add]

/-- Claim C8: `get_content` pages are slices of the id-sorted view list: every
page is sorted by ascending id, the sorted list is a permutation of the full
record views, an offset at or beyond the end yields the empty page, and
concatenating the pages at offsets `0, limit, 2*limit, ...` (enough to cover
the records) reproduces the full sorted view list exactly once. -/
theorem get_content_pagination {μ : Type} (st : Store μ) (offset limit pd k : Nat)
    (hk : (viewsOf st pd).length ≤ k * limit) :
    List.Sorted viewLE (get_content st offset limit pd) ∧
    (List.insertionSort viewLE (viewsOf st pd)).Perm (viewsOf st pd) ∧
    ((viewsOf st pd).length ≤ offset → get_content st offset limit pd = []) ∧
    ((List.range k).map (fun i => get_content st (i * limit) limit pd)).flatten =
      List.insertionSort viewLE (viewsOf st pd) := by
  have hsorted : List.Sorted viewLE (List.insertionSort viewLE (viewsOf st pd)) :=
    List.sorted_insertionSort viewLE (viewsOf st pd)
  have hperm : (List.insertionSort viewLE (viewsOf st pd)).Perm (viewsOf st pd) :=
    List.perm_insertionSort viewLE (viewsOf st pd)
  refine ⟨?_, hperm, ?_, ?_⟩
  · have hsub : (((List.insertionSort viewLE (viewsOf st pd)).drop offset).take limit).Sublist
        (List.insertionSort viewLE (viewsOf st pd)) :=
      (List.take_sublist _ _).trans (List.drop_sublist _ _)
    exact List.Pairwise.sublist hsub hsorted
  · intro hoff
    unfold get_content
    rw [List.drop_eq_nil_of_le, List.take_nil]
    rw [hperm.length_eq]
    exact hoff
  · show ((List.range k).map (fun i =>
      ((List.insertionSort viewLE (viewsOf st pd)).drop (i * limit)).take limit)).flatten = _
    rw [join_take_slices]
    apply List.take_of_length_le
    rw [hperm.length_eq]
    exact hk

/-- Witness for `get_content_pagination`: a two-record store with `limit = 1`
and `k = 2`; the page at offset 5 is empty. -/
theorem get_content_pagination_witness :
    (viewsOf (μ := Unit) ⟨2, [(1, [5, 6])], [(2, ⟨"b", ()⟩), (1, ⟨"a", ()⟩)], some 2, "l2"⟩
        8).length ≤ 2 * 1 ∧
    get_content (μ := Unit) ⟨2, [(1, [5, 6])], [(2, ⟨"b", ()⟩), (1, ⟨"a", ()⟩)], some 2, "l2"⟩
        5 1 8 = [] := by
  refine ⟨by decide, ?_⟩
  exact (get_content_pagination (μ := Unit)
    ⟨2, [(1, [5, 6])], [(2, ⟨"b", ()⟩), (1, ⟨"a", ()⟩)], some 2, "l2"⟩
    5 1 8 2 (by decide)).2.2.1 (by decide)

end ChunkCanvas
